import Mathlib

/-!
Verification of the `rand-select` crate (`src/lib.rs`): a weighted random
selector `RandomSelector<T>` with builder operations `with`, `with_none`,
`with_none_up_to` and a sampling operation `select_with_rng`.

The Rust code computes on `f64`. We embed `f64` as `EF`: a finite rational,
`+inf`, `-inf`, or `NaN`, with IEEE-754 semantics for the special values
(NaN propagates through addition and absolute value, NaN comparisons are
always false, `inf + -inf = NaN`) and exact arithmetic on finite values.
The random number generator is abstracted: `select_with_rng` takes the
drawn value `x` (drawn by the code uniformly from `[0, total_weight)`) as
an explicit argument.
-/

set_option autoImplicit false

/-- Embedding of an `f64` value: a finite rational, one of the two
infinities, or NaN. Exact rationals stand in for finite doubles. -/
inductive EF where
  | fin (q : ℚ)
  | pinf
  | ninf
  | nan
  deriving DecidableEq

/-- IEEE-754 addition on embedded doubles: NaN propagates, opposite
infinities give NaN, finite addition is exact. -/
def EF.add : EF → EF → EF
  | EF.nan, _ => EF.nan
  | _, EF.nan => EF.nan
  | EF.pinf, EF.ninf => EF.nan
  | EF.ninf, EF.pinf => EF.nan
  | EF.pinf, _ => EF.pinf
  | _, EF.pinf => EF.pinf
  | EF.ninf, _ => EF.ninf
  | _, EF.ninf => EF.ninf
  | EF.fin a, EF.fin b => EF.fin (a + b)

instance : Add EF := ⟨EF.add⟩

/-- IEEE-754 absolute value: `abs NaN = NaN`, `abs (±inf) = +inf`. -/
def EF.abs : EF → EF
  | EF.fin q => EF.fin |q|
  | EF.pinf => EF.pinf
  | EF.ninf => EF.pinf
  | EF.nan => EF.nan

/-- IEEE-754 equality test (Rust `==` on `f64`): false whenever NaN is
involved, exact comparison on finite values. -/
def EF.feq : EF → EF → Bool
  | EF.nan, _ => false
  | _, EF.nan => false
  | EF.pinf, EF.pinf => true
  | EF.ninf, EF.ninf => true
  | EF.fin a, EF.fin b => a == b
  | _, _ => false

/-- IEEE-754 strict less-than (Rust `<` on `f64`): false whenever NaN is
involved. -/
def EF.lt : EF → EF → Bool
  | EF.nan, _ => false
  | _, EF.nan => false
  | EF.pinf, _ => false
  | _, EF.pinf => true
  | EF.ninf, EF.ninf => false
  | EF.ninf, _ => true
  | _, EF.ninf => false
  | EF.fin a, EF.fin b => a < b

/-- IEEE-754 less-or-equal (Rust `<=` on `f64`): false whenever NaN is
involved. -/
def EF.le : EF → EF → Bool
  | EF.nan, _ => false
  | _, EF.nan => false
  | _, EF.pinf => true
  | EF.pinf, _ => false
  | EF.ninf, _ => true
  | _, EF.ninf => false
  | EF.fin a, EF.fin b => a ≤ b

/-- Embedding of `struct Choice<T> { weight: f64, value: T }`. -/
structure Choice (T : Type) where
  weight : EF
  value : T
  deriving DecidableEq

/-- Embedding of `pub struct RandomSelector<T> { choices: Vec<Choice<T>>,
total_weight: f64 }`. -/
structure RandomSelector (T : Type) where
  choices : List (Choice T)
  total_weight : EF
  deriving DecidableEq

/-- Embedding of `impl Default for RandomSelector<T>`: no choices, total
weight `0.0`. -/
def RandomSelector.default {T : Type} : RandomSelector T :=
  { choices := [], total_weight := EF.fin 0 }

/-- Embedding of `RandomSelector::with` (named `with'` because `with` is a
Lean keyword): push the choice, add `weight.abs()` to the total. -/
def RandomSelector.with' {T : Type} (s : RandomSelector T) (weight : EF) (value : T) :
    RandomSelector T :=
  { choices := s.choices ++ [{ weight := weight, value := value }],
    total_weight := s.total_weight + weight.abs }

/-- Embedding of `RandomSelector::with_none`: add `weight.abs()` to the
total, leave the choices untouched. -/
def RandomSelector.with_none {T : Type} (s : RandomSelector T) (weight : EF) :
    RandomSelector T :=
  { choices := s.choices, total_weight := s.total_weight + weight.abs }

/-- Embedding of `RandomSelector::with_none_up_to`: replace the total with
`total_weight.abs()`, leave the choices untouched. -/
def RandomSelector.with_none_up_to {T : Type} (s : RandomSelector T) (total_weight : EF) :
    RandomSelector T :=
  { choices := s.choices, total_weight := total_weight.abs }

/-- The `for choice in &self.choices` loop of `select_with_rng`:
accumulate the raw (signed) weight into `cumulative_weight` and return the
first value for which `random_value < cumulative_weight`. -/
def scanChoices {T : Type} : List (Choice T) → EF → EF → Option T
  | [], _, _ => none
  | c :: rest, cumulative_weight, random_value =>
    let cw := cumulative_weight + c.weight
    if EF.lt random_value cw then some c.value
    else scanChoices rest cw random_value

/-- Embedding of `RandomSelector::select_with_rng`. The RNG is abstracted:
`random_value` is the value the code draws from `0.0..self.total_weight`.
If `self.total_weight == 0.0` the function returns `None` before drawing;
otherwise it scans the choices with a running signed cumulative weight. -/
def RandomSelector.select_with_rng {T : Type} (s : RandomSelector T) (random_value : EF) :
    Option T :=
  if EF.feq s.total_weight (EF.fin 0) then none
  else scanChoices s.choices (EF.fin 0) random_value

/-- Spec-side description of the scan: the running cumulative sums of the
raw signed weights, in insertion order (`[w₁, w₁+w₂, …]`). -/
def cumulativeSums {T : Type} (l : List (Choice T)) : List EF :=
  ((l.map Choice.weight).scanl EF.add (EF.fin 0)).tail

/-- Spec-side description of `select_with_rng` as the claims state it: if
`total_weight == 0.0` return `None`; otherwise return the value of the
first choice whose running cumulative sum of raw signed weights is
strictly greater than the drawn value, and `None` if there is none. -/
def specSelect {T : Type} (s : RandomSelector T) (x : EF) : Option T :=
  if EF.feq s.total_weight (EF.fin 0) then none
  else
    (((cumulativeSums s.choices).zip (s.choices.map Choice.value)).find?
      (fun p => EF.lt x p.1)).map Prod.snd

/-- A builder call on the selector: `with` (add a weighted choice),
`with_none` (add none mass), or `with_none_up_to` (override the total). -/
inductive BuildOp (T : Type) where
  | withC (w : EF) (v : T)
  | withNone (w : EF)
  | withNoneUpTo (t : EF)

/-- Run a sequence of builder calls on a selector, in order. -/
def build {T : Type} : RandomSelector T → List (BuildOp T) → RandomSelector T
  | s, [] => s
  | s, BuildOp.withC w v :: ops => build (s.with' w v) ops
  | s, BuildOp.withNone w :: ops => build (s.with_none w) ops
  | s, BuildOp.withNoneUpTo t :: ops => build (s.with_none_up_to t) ops

/-- The weights passed to `with`/`with_none` calls, in call order
(`with_none_up_to` arguments are not weight contributions). -/
def contributedWeights {T : Type} : List (BuildOp T) → List EF
  | [] => []
  | BuildOp.withC w _ :: ops => w :: contributedWeights ops
  | BuildOp.withNone w :: ops => w :: contributedWeights ops
  | BuildOp.withNoneUpTo _ :: ops => contributedWeights ops

/-- Accumulate the absolute values of `ws` on top of `init`, in order. -/
def sumAbsFrom (init : EF) (ws : List EF) : EF :=
  ws.foldl (fun a w => a + w.abs) init

/-- The argument of the last `with_none_up_to` call in the sequence,
together with the calls after it, when such a call occurred. -/
def lastOverrideSplit {T : Type} : List (BuildOp T) → Option (EF × List (BuildOp T))
  | [] => none
  | BuildOp.withNoneUpTo t :: ops =>
    match lastOverrideSplit ops with
    | some p => some p
    | none => some (t, ops)
  | BuildOp.withC _ _ :: ops => lastOverrideSplit ops
  | BuildOp.withNone _ :: ops => lastOverrideSplit ops

/-- Spec-side total weight of a build sequence, as the claim states it:
the sum of the absolute values of all contributed weights, unless a
`with_none_up_to` occurred, in which case the absolute value of the last
override argument plus the absolute weights contributed after it. -/
def claimedTotal {T : Type} (ops : List (BuildOp T)) : EF :=
  match lastOverrideSplit ops with
  | none => sumAbsFrom (EF.fin 0) (contributedWeights ops)
  | some (t, rest) => sumAbsFrom t.abs (contributedWeights rest)

/-- Build a selector from finite-rational weighted pairs using only
`with'` calls, starting from the default selector. -/
def buildPos {T : Type} (ps : List (ℚ × T)) : RandomSelector T :=
  ps.foldl (fun s p => s.with' (EF.fin p.1) p.2) RandomSelector.default

example :
    ((RandomSelector.default.with' (EF.fin 2) 'A').with' (EF.fin 3) 'B').select_with_rng
      (EF.fin 2) = some 'B' := by
  norm_num [RandomSelector.select_with_rng, RandomSelector.with', RandomSelector.default,
    scanChoices, EF.feq, EF.lt, EF.abs, HAdd.hAdd, Add.add, EF.add]

example :
    ((RandomSelector.default.with' (EF.fin 2) 'A').with' (EF.fin 3) 'B').select_with_rng
      (EF.fin 1) = some 'A' := by
  norm_num [RandomSelector.select_with_rng, RandomSelector.with', RandomSelector.default,
    scanChoices, EF.feq, EF.lt, EF.abs, HAdd.hAdd, Add.add, EF.add]

example :
    (RandomSelector.default (T := Char)).select_with_rng (EF.fin 1) = none := by
  norm_num [RandomSelector.select_with_rng, RandomSelector.default, EF.feq]

/-- C2: for every selector whose `total_weight` is exactly `0.0` —
including the default (empty) selector and any selector whose added
weights summed to exactly zero — `select_with_rng` (and hence `select`,
which merely delegates to it with a default RNG) returns `None`
unconditionally, whatever value the random source would have drawn. -/
theorem select_with_rng_zero_total {T : Type} (s : RandomSelector T) (x : EF)
    (h : s.total_weight = EF.fin 0) :
    s.select_with_rng x = none := by
  simp [RandomSelector.select_with_rng, h, EF.feq]

/-- Witness for C2: the default selector has zero total weight and
returns `None` on a sample draw. -/
theorem select_with_rng_zero_total_witness :
    (RandomSelector.default (T := Char)).select_with_rng (EF.fin 1) = none :=
  select_with_rng_zero_total RandomSelector.default (EF.fin 1) rfl

/-- C5: `with` appends `Choice {weight, value}` at the end of the choice
sequence and adds `abs weight` to `total_weight`, for every weight
including negative, infinite and NaN ones (no constraint is checked). -/
theorem with_appends_and_adds_abs {T : Type} (s : RandomSelector T) (w : EF) (v : T) :
    (s.with' w v).choices = s.choices ++ [{ weight := w, value := v }] ∧
    (s.with' w v).total_weight = s.total_weight + w.abs :=
  ⟨rfl, rfl⟩

/-- C6: `with_none` adds `abs weight` to `total_weight` and leaves the
choice sequence unchanged. -/
theorem with_none_adds_abs_frame {T : Type} (s : RandomSelector T) (w : EF) :
    (s.with_none w).total_weight = s.total_weight + w.abs ∧
    (s.with_none w).choices = s.choices :=
  ⟨rfl, rfl⟩

/-- C7: `with_none_up_to` sets `total_weight` to exactly `abs t`,
discarding the previously accumulated total whatever it was, and leaves
the choice sequence unchanged; no validation against the sum of
already-added choice weights is performed. -/
theorem with_none_up_to_sets_abs {T : Type} (s : RandomSelector T) (t : EF) :
    (s.with_none_up_to t).total_weight = t.abs ∧
    (s.with_none_up_to t).choices = s.choices :=
  ⟨rfl, rfl⟩

/-- C10: `with_none_up_to` absorbs earlier none-mass contributions: a
`with_none x` or a `with_none_up_to x` immediately before a
`with_none_up_to t` leaves no trace (same choices, same total). -/
theorem with_none_up_to_absorbs {T : Type} (s : RandomSelector T) (x t : EF) :
    (s.with_none x).with_none_up_to t = s.with_none_up_to t ∧
    (s.with_none_up_to x).with_none_up_to t = s.with_none_up_to t :=
  ⟨rfl, rfl⟩

/-- Addition on `EF` unfolds to `EF.add`. -/
theorem EF.add_def (a b : EF) : a + b = EF.add a b := rfl

/-- A `scanl` always starts with its initial accumulator. -/
theorem scanl_cons_tail {α β : Type} (f : β → α → β) (b : β) (l : List α) :
    List.scanl f b l = b :: (List.scanl f b l).tail := by
  cases l <;> rfl

/-- The scan loop equals searching the list of running cumulative sums
(paired with the values) for the first entry strictly above the draw. -/
theorem scanChoices_eq_find {T : Type} (l : List (Choice T)) (cum x : EF) :
    scanChoices l cum x =
      ((((l.map Choice.weight).scanl EF.add cum).tail.zip (l.map Choice.value)).find?
        (fun p => EF.lt x p.1)).map Prod.snd := by
  induction l generalizing cum with
  | nil => simp [scanChoices]
  | cons c cs ih =>
    rw [List.map_cons, List.map_cons, List.scanl_cons, List.singleton_append,
      List.tail_cons,
      scanl_cons_tail EF.add (EF.add cum c.weight) (cs.map Choice.weight),
      List.zip_cons_cons]
    by_cases hlt : EF.lt x (EF.add cum c.weight) = true
    · simp [scanChoices, EF.add_def, hlt]
    · simp only [Bool.not_eq_true] at hlt
      simp [scanChoices, EF.add_def, hlt, ih]

/-- C1: for every selector and every drawn value `x` in
`[0, total_weight)`, `select_with_rng` scans the choices in insertion
order accumulating the raw signed weights, returns the value of the first
choice with `x` strictly below the running sum (a draw equal to a
cumulative sum does not select that choice, by strictness of `<`), and
returns `None` when no choice qualifies — i.e. it coincides with the
spec-side `specSelect`. -/
theorem select_with_rng_eq_specSelect {T : Type} (s : RandomSelector T) (x : EF)
    (hx0 : EF.le (EF.fin 0) x = true) (hxt : EF.lt x s.total_weight = true) :
    s.select_with_rng x = specSelect s x := by
  by_cases h : EF.feq s.total_weight (EF.fin 0) = true
  · simp [RandomSelector.select_with_rng, specSelect, h]
  · simp only [Bool.not_eq_true] at h
    simp only [RandomSelector.select_with_rng, specSelect, cumulativeSums, h,
      Bool.false_eq_true, if_false]
    exact scanChoices_eq_find s.choices (EF.fin 0) x

/-- Without any override call, the total accumulates the absolute values
of the contributed weights on top of the starting total. -/
theorem build_total_no_override {T : Type} (ops : List (BuildOp T)) :
    ∀ s : RandomSelector T, lastOverrideSplit ops = none →
      (build s ops).total_weight = sumAbsFrom s.total_weight (contributedWeights ops) := by
  induction ops with
  | nil => intro s _; simp [build, sumAbsFrom, contributedWeights]
  | cons op ops ih =>
    intro s h
    cases op with
    | withC w v =>
      simp only [lastOverrideSplit] at h
      simp only [build, contributedWeights, sumAbsFrom, List.foldl_cons]
      exact ih (s.with' w v) h
    | withNone w =>
      simp only [lastOverrideSplit] at h
      simp only [build, contributedWeights, sumAbsFrom, List.foldl_cons]
      exact ih (s.with_none w) h
    | withNoneUpTo t =>
      exfalso
      simp only [lastOverrideSplit] at h
      rcases h' : lastOverrideSplit ops with _ | p <;> simp [h'] at h

/-- With an override call, the total is the absolute value of the last
override argument plus the absolute weights contributed after it,
independent of the starting selector's total. -/
theorem build_total_override {T : Type} (ops : List (BuildOp T)) :
    ∀ (s : RandomSelector T) (t : EF) (rest : List (BuildOp T)),
      lastOverrideSplit ops = some (t, rest) →
      (build s ops).total_weight = sumAbsFrom t.abs (contributedWeights rest) := by
  induction ops with
  | nil => intro s t rest h; simp [lastOverrideSplit] at h
  | cons op ops ih =>
    intro s t rest h
    cases op with
    | withC w v =>
      simp only [lastOverrideSplit] at h
      exact ih (s.with' w v) t rest h
    | withNone w =>
      simp only [lastOverrideSplit] at h
      exact ih (s.with_none w) t rest h
    | withNoneUpTo u =>
      simp only [lastOverrideSplit] at h
      rcases h' : lastOverrideSplit ops with _ | ⟨a, b⟩
      · rw [h'] at h
        simp only [Option.some.injEq, Prod.mk.injEq] at h
        rw [show build s (BuildOp.withNoneUpTo u :: ops) =
              build (s.with_none_up_to u) ops from rfl,
          build_total_no_override ops (s.with_none_up_to u) h', ← h.1, ← h.2]
        rfl
      · rw [h'] at h
        simp only [Option.some.injEq, Prod.mk.injEq] at h
        obtain ⟨ht, hrest⟩ := h
        subst ht hrest
        exact ih (s.with_none_up_to u) a b h'

/-- C4: for every sequence of builder calls starting from the default
selector, the resulting `total_weight` equals the sum of the absolute
values of all contributed weights — unless a `with_none_up_to` call
occurred, in which case it equals the absolute value of the last override
argument plus the absolute weights contributed after it, independent of
contributions before it. -/
theorem build_total_invariant {T : Type} (ops : List (BuildOp T)) :
    (build RandomSelector.default ops).total_weight = claimedTotal ops := by
  unfold claimedTotal
  rcases h : lastOverrideSplit ops with _ | ⟨t, rest⟩
  · exact build_total_no_override ops RandomSelector.default h
  · exact build_total_override ops RandomSelector.default t rest h

example :
    claimedTotal [BuildOp.withC (EF.fin 1) 'A', BuildOp.withNone (EF.fin 7),
      BuildOp.withNoneUpTo (EF.fin (-4)), BuildOp.withC (EF.fin (-2)) 'B'] = EF.fin 6 := by
  norm_num [claimedTotal, lastOverrideSplit, contributedWeights, sumAbsFrom, EF.abs,
    EF.add_def, EF.add]

/-- C8: the selector built by `with(-1.0, 'A')` then `with(2.0, 'B')` has
`total_weight = 3.0` (absolute values), yet the raw cumulative sums are
`-1` then `1`: every draw in `[1, 3)` yields `None`, and no draw in
`[0, 3)` can ever yield `'A'`. -/
theorem negative_weight_unreachable :
    ((RandomSelector.default.with' (EF.fin (-1)) 'A').with' (EF.fin 2) 'B').total_weight
        = EF.fin 3 ∧
    ∀ x : EF,
      (EF.le (EF.fin 1) x = true → EF.lt x (EF.fin 3) = true →
        ((RandomSelector.default.with' (EF.fin (-1)) 'A').with' (EF.fin 2) 'B').select_with_rng
          x = none) ∧
      (EF.le (EF.fin 0) x = true →
        ((RandomSelector.default.with' (EF.fin (-1)) 'A').with' (EF.fin 2) 'B').select_with_rng
          x ≠ some 'A') := by
  have hsel :
      (RandomSelector.default.with' (EF.fin (-1)) 'A').with' (EF.fin 2) 'B' =
        { choices := [{ weight := EF.fin (-1), value := 'A' },
                      { weight := EF.fin 2, value := 'B' }],
          total_weight := EF.fin 3 } := by
    simp only [RandomSelector.with', RandomSelector.default, EF.abs, EF.add_def, EF.add,
      List.nil_append, List.cons_append, RandomSelector.mk.injEq]
    norm_num
  rw [hsel]
  refine ⟨rfl, fun x => ⟨fun h1 h3 => ?_, fun h0 => ?_⟩⟩
  · cases x with
    | fin q =>
      simp only [EF.le, decide_eq_true_eq] at h1
      simp only [EF.lt, decide_eq_true_eq] at h3
      simp [RandomSelector.select_with_rng, scanChoices, EF.feq, EF.lt, EF.add_def, EF.add]
      split_ifs with hA hB
      · exact absurd hA (by linarith)
      · exact absurd hB (by linarith)
      · rfl
    | pinf =>
      simp [EF.lt] at h3
    | ninf =>
      simp [EF.le] at h1
    | nan =>
      simp [EF.le] at h1
  · cases x with
    | fin q =>
      simp only [EF.le, decide_eq_true_eq] at h0
      simp [RandomSelector.select_with_rng, scanChoices, EF.feq, EF.lt, EF.add_def, EF.add]
      linarith
    | pinf =>
      simp [RandomSelector.select_with_rng, scanChoices, EF.feq, EF.lt, EF.add_def, EF.add]
    | ninf =>
      simp [EF.le] at h0
    | nan =>
      simp [EF.le] at h0

/-- Witness for C8: the draw `2` (in `[1, 3)`) yields `None`, and the
draw `0` (in `[0, 3)`) does not yield `'A'`. -/
theorem negative_weight_unreachable_witness :
    ((RandomSelector.default.with' (EF.fin (-1)) 'A').with' (EF.fin 2) 'B').select_with_rng
        (EF.fin 2) = none ∧
    ((RandomSelector.default.with' (EF.fin (-1)) 'A').with' (EF.fin 2) 'B').select_with_rng
        (EF.fin 0) ≠ some 'A' :=
  ⟨(negative_weight_unreachable.2 (EF.fin 2)).1 (by decide) (by decide),
   (negative_weight_unreachable.2 (EF.fin 0)).2 (by decide)⟩

/-- Witness for C1: the selector with weights `[2, 3]` and draw `2`
(equal to the first cumulative sum, so the boundary rule applies: the
first choice is not selected). -/
theorem select_with_rng_eq_specSelect_witness :
    ((RandomSelector.default.with' (EF.fin 2) 'A').with' (EF.fin 3) 'B').select_with_rng
        (EF.fin 2) =
      specSelect ((RandomSelector.default.with' (EF.fin 2) 'A').with' (EF.fin 3) 'B')
        (EF.fin 2) :=
  select_with_rng_eq_specSelect _ _ (by norm_num [EF.le])
    (by norm_num [RandomSelector.with', RandomSelector.default, EF.lt, EF.abs,
      EF.add_def, EF.add])

/-- Folding `with'` over finite weights adds the absolute values of the
weights to the total, which stays finite. -/
theorem foldl_with_total {T : Type} (ps : List (ℚ × T)) :
    ∀ (s : RandomSelector T) (q : ℚ), s.total_weight = EF.fin q →
      (ps.foldl (fun s p => s.with' (EF.fin p.1) p.2) s).total_weight
        = EF.fin (q + (ps.map (fun p => |p.1|)).sum) := by
  induction ps with
  | nil => intro s q h; simpa using h
  | cons p ps ih =>
    intro s q h
    simp only [List.foldl_cons, List.map_cons, List.sum_cons]
    rw [ih (s.with' (EF.fin p.1) p.2) (q + |p.1|)
      (by simp [RandomSelector.with', h, EF.add_def, EF.add, EF.abs]), add_assoc]

/-- Folding `with'` appends the corresponding choices in order. -/
theorem foldl_with_choices {T : Type} (ps : List (ℚ × T)) :
    ∀ s : RandomSelector T,
      (ps.foldl (fun s p => s.with' (EF.fin p.1) p.2) s).choices
        = s.choices ++ ps.map (fun p => { weight := EF.fin p.1, value := p.2 }) := by
  induction ps with
  | nil => intro s; simp
  | cons p ps ih =>
    intro s
    simp only [List.foldl_cons, List.map_cons]
    rw [ih]
    simp [RandomSelector.with']

/-- The raw cumulative sum over finite weights is the finite sum. -/
theorem foldl_add_fin {T : Type} (ps : List (ℚ × T)) :
    ∀ q : ℚ,
      (ps.map (fun p => ({ weight := EF.fin p.1, value := p.2 } : Choice T))).foldl
        (fun a c => a + c.weight) (EF.fin q) = EF.fin (q + (ps.map (fun p => p.1)).sum) := by
  induction ps with
  | nil => intro q; simp
  | cons p ps ih =>
    intro q
    simp only [List.map_cons, List.foldl_cons, List.sum_cons]
    rw [show (EF.fin q + EF.fin p.1) = EF.fin (q + p.1) from rfl, ih, add_assoc]

/-- When the scan of a nonempty choice list returns `None`, the draw was
not below the final cumulative sum. -/
theorem scanChoices_none_final {T : Type} (l : List (Choice T)) :
    ∀ (cum x : EF), l ≠ [] → scanChoices l cum x = none →
      EF.lt x (l.foldl (fun a c => a + c.weight) cum) = false := by
  induction l with
  | nil => intro _ _ h; exact absurd rfl h
  | cons c cs ih =>
    intro cum x _ hscan
    rw [List.foldl_cons]
    rcases hlt : EF.lt x (cum + c.weight) with _ | _
    · simp only [scanChoices, hlt, Bool.false_eq_true, if_false] at hscan
      rcases cs with _ | ⟨c2, cs2⟩
      · simpa [List.foldl] using hlt
      · exact ih (cum + c.weight) x (by simp) hscan
    · simp only [scanChoices, hlt, if_true] at hscan
      exact absurd hscan (by simp)

/-- C9: a selector built from the default one only by `with` calls whose
weights are all strictly positive and finite covers the whole draw range:
the final cumulative scan sum equals `total_weight` exactly, so for every
draw `x` in `[0, total_weight)` the scan returns some value, never
`None`. -/
theorem all_positive_covers {T : Type} (ps : List (ℚ × T)) (x : EF)
    (hne : ps ≠ [])
    (hpos : ∀ p ∈ ps, 0 < p.1)
    (hx0 : EF.le (EF.fin 0) x = true)
    (hxt : EF.lt x (buildPos ps).total_weight = true) :
    ∃ v, (buildPos ps).select_with_rng x = some v := by
  have hmaps : ps.map (fun p => |p.1|) = ps.map (fun p => p.1) :=
    List.map_congr_left (fun a ha => abs_of_pos (hpos a ha))
  have htot : (buildPos ps).total_weight = EF.fin ((ps.map (fun p => p.1)).sum) := by
    rw [buildPos, foldl_with_total ps RandomSelector.default 0 rfl, hmaps, zero_add]
  have hsum_pos : 0 < (ps.map (fun p => p.1)).sum := by
    apply List.sum_pos
    · intro a ha
      obtain ⟨p, hp, rfl⟩ := List.mem_map.1 ha
      exact hpos p hp
    · simpa using hne
  have hchoices : (buildPos ps).choices
      = ps.map (fun p => { weight := EF.fin p.1, value := p.2 }) := by
    rw [buildPos, foldl_with_choices]
    simp [RandomSelector.default]
  cases hres : (buildPos ps).select_with_rng x with
  | some v => exact ⟨v, rfl⟩
  | none =>
    exfalso
    rw [RandomSelector.select_with_rng] at hres
    by_cases hguard : EF.feq (buildPos ps).total_weight (EF.fin 0) = true
    · rw [htot] at hguard
      simp only [EF.feq, beq_iff_eq] at hguard
      exact absurd hguard hsum_pos.ne'
    · rw [if_neg hguard] at hres
      have hnone := scanChoices_none_final (buildPos ps).choices (EF.fin 0) x
        (by rw [hchoices]; simpa using hne) hres
      rw [hchoices, foldl_add_fin ps 0, zero_add] at hnone
      rw [htot] at hxt
      rw [hxt] at hnone
      exact Bool.noConfusion hnone

/-- Witness for C9: the single-choice selector with weight `1` and the
draw `0` yields some value. -/
theorem all_positive_covers_witness :
    ∃ v, (buildPos [((1:ℚ), 'A')]).select_with_rng (EF.fin 0) = some v :=
  all_positive_covers [((1:ℚ), 'A')] (EF.fin 0) (by decide)
    (by intro p hp; rw [List.mem_singleton] at hp; subst hp; norm_num)
    (by decide)
    (by norm_num [buildPos, RandomSelector.with', RandomSelector.default, EF.abs,
      EF.add_def, EF.add, EF.lt])

/-- Counterexample to C3 as stated: the selector `with(1.0,'A').with(+inf,'B')`
has `total_weight = +inf` — a selector the claim covers, saying the scan
falls through to `None` — yet the draw `2`, which lies in
`[0, total_weight)` by IEEE comparison, makes the scan return `Some 'B'`. -/
theorem nonfinite_total_counterexample :
    ((RandomSelector.default.with' (EF.fin 1) 'A').with' EF.pinf 'B').total_weight
        = EF.pinf ∧
    EF.le (EF.fin 0) (EF.fin 2) = true ∧
    EF.lt (EF.fin 2)
      ((RandomSelector.default.with' (EF.fin 1) 'A').with' EF.pinf 'B').total_weight
        = true ∧
    ((RandomSelector.default.with' (EF.fin 1) 'A').with' EF.pinf 'B').select_with_rng
      (EF.fin 2) = some 'B' := by
  have h : (RandomSelector.default.with' (EF.fin 1) 'A').with' EF.pinf 'B' =
      { choices := [{ weight := EF.fin 1, value := 'A' },
                    { weight := EF.pinf, value := 'B' }],
        total_weight := EF.pinf } := by
    simp [RandomSelector.with', RandomSelector.default, EF.abs, EF.add_def, EF.add]
  rw [h]
  refine ⟨rfl, by decide, by decide, ?_⟩
  simp [RandomSelector.select_with_rng, scanChoices, EF.feq, EF.lt, EF.add_def, EF.add]

/-- C3 amended: in the embedding (where the random source is abstracted
into the drawn value) every operation returns a definite result —
`select_with_rng` always yields `None` or `Some` — and a NaN comparison
being false means a choice whose cumulative sum is NaN is never selected:
a selector whose single choice has NaN weight returns `None` for every
draw. A NaN or infinite `total_weight` does not, however, force the whole
scan to fall through to `None`, and the draw request `[0, total_weight)`
itself is then outside the random source's half-open-range capability. -/
theorem operations_total_nan_skipped {T : Type} (v : T) (x : EF) :
    (RandomSelector.default.with' EF.nan v).select_with_rng x = none ∧
    ∀ s : RandomSelector T,
      s.select_with_rng x = none ∨ ∃ u, s.select_with_rng x = some u := by
  constructor
  · cases x <;> rfl
  · intro s
    cases h : s.select_with_rng x with
    | none => exact Or.inl rfl
    | some u => exact Or.inr ⟨u, rfl⟩
